import Mathlib

/-!
Verification of the dyn-fmt runtime format-string renderer
(`src/lib.rs`, `impl Display for Arguments` and its helper parsers).

The template is modelled as a `List Char`; the remaining input `fmt` of the
source is represented by the offset `i` into the full template (the source
maintains `fmt = &original[i..]`), and the sub-field ranges index the full
template exactly as in the source. Arguments are modelled as their
`Display` behaviour: a function from the optional width directive
(zero-pad flag and width) and the optional precision to the rendered text,
mirroring how the renderer only passes width/precision through to the
value's own formatting. The sink is modelled generically as a state type
with a fallible write, mirroring the `?` propagation on every write.
-/

/-- Argument value, modelled by its `Display` behaviour: given the optional
width directive (`some (zeroPad, w)`) and the optional precision, it
produces its rendered text. -/
abbrev ArgVal := Option (Bool × Nat) → Option Nat → List Char

/-- The `Brace` enum of the source. -/
inductive Brace
  | left
  | right
deriving DecidableEq

/-- `as_brace` from the source: classify a character as `{`, `}` or neither. -/
def as_brace (c : Char) : Option Brace :=
  if c = '{' then some Brace.left
  else if c = '}' then some Brace.right
  else none

/-- The `Width` enum of the source: zero-padded or space-padded width. -/
inductive Width
  | zero (w : Nat)
  | space (w : Nat)
deriving DecidableEq

/-- The `Pos` enum of the source: no position text, explicit index, or parse error. -/
inductive Pos
  | none
  | some (i : Nat)
  | error
deriving DecidableEq

/-- The `State` enum of the source. -/
inductive State
  | piece
  | arg
  | argPos
  | argWidth
  | argPrecision
deriving DecidableEq

/-- Rust `char::is_whitespace` (the Unicode White_Space property),
used by `str::trim`. -/
def is_whitespace (c : Char) : Bool :=
  let n := c.toNat
  (9 ≤ n && n ≤ 13) || n = 32 || n = 133 || n = 160 || n = 0x1680 ||
  (0x2000 ≤ n && n ≤ 0x200a) || n = 0x2028 || n = 0x2029 || n = 0x202f ||
  n = 0x205f || n = 0x3000

/-- Rust `str::trim`: strip leading and trailing whitespace. -/
def trimChars (s : List Char) : List Char :=
  ((s.dropWhile is_whitespace).reverse.dropWhile is_whitespace).reverse

/-- Rust `str::parse::<usize>`: an optional leading `+`, then one or more
ASCII digits, rejecting anything else and values that overflow `usize`
(64-bit). -/
def parse_usize (s : List Char) : Option Nat :=
  let digits := match s with
    | '+' :: rest => rest
    | _ => s
  if digits = [] then none
  else if digits.all Char.isDigit then
    let v := digits.foldl (fun a c => a * 10 + (c.toNat - 48)) 0
    if v < 2 ^ 64 then some v else none
  else none

/-- `parse_pos` from the source: trim, empty means sequential, otherwise
parse as `usize` with failure recorded as `Pos.error`. -/
def parse_pos (s : List Char) : Pos :=
  let s := trimChars s
  if s = [] then Pos.none
  else match parse_usize s with
    | some p => Pos.some p
    | none => Pos.error

/-- `parse_width` from the source: on a successful `usize` parse the pad
character is `0` exactly when the first character is `0`; on failure the
width degrades to `Space(0)`. -/
def parse_width (s : List Char) : Width :=
  match parse_usize s with
  | some w => if s.head? = some '0' then Width.zero w else Width.space w
  | none => Width.space 0

/-- Slice `buf[r.1..r.2]` of the template, as used by `State::Arg`. -/
def extract (t : List Char) (r : Nat × Nat) : List Char :=
  (t.drop r.1).take (r.2 - r.1)

/-- The five-way `match (_width, _precision)` of `State::Arg`, in source
order: it dispatches to the argument's own formatting with the chosen
width directive and precision. -/
def writeArg (arg : ArgVal) (w : Width) (p : Option Nat) : List Char :=
  match w, p with
  | Width.space 0, Option.none => arg none none
  | Width.zero wv, Option.some pv => arg (some (true, wv)) (some pv)
  | Width.space wv, Option.some pv => arg (some (false, wv)) (some pv)
  | Width.zero wv, Option.none => arg (some (true, wv)) none
  | Width.space wv, Option.none => arg (some (false, wv)) none

/-- The mutable loop state of `Display::fmt`: the current `State`, the three
sub-field ranges into the full template, the argument iterator position
`cur`, the offset `i` of the remaining input within the full template, and
`piece_end`. -/
structure Conf where
  state : State
  pos_range : Nat × Nat
  width_range : Nat × Nat
  precision_range : Nat × Nat
  cur : Nat
  i : Nat
  piece_end : Nat
deriving DecidableEq

/-- Result of one loop iteration: continue with some writes performed, stop
successfully (the `break`s followed by `Ok(())`), or hit `unreachable!()`. -/
inductive StepOut
  | cont (ws : List (List Char)) (c : Conf)
  | halt (ws : List (List Char))
  | panicked
deriving DecidableEq

/-- One iteration of the `loop` in `Display::fmt`, translated branch by
branch from the source. `t` is the full template, `args` the argument
list. In the spec states the source steps with a byte slice of a string
slice; when the character at the scan front is not ASCII (more than one
UTF-8 byte), byte index 1 is not a character boundary and that slice
panics, modelled by `StepOut.panicked` in the consume-one-character
branches. The braces, the colon and the dot are ASCII, so their branches
never hit this; the `Literal` scan only ever slices at brace positions,
which are always character boundaries. -/
def step (t : List Char) (args : List ArgVal) (c : Conf) : StepOut :=
  match c.state with
  | State.piece =>
    match t[c.i + c.piece_end]? with
    | none => StepOut.halt [t.drop c.i]
    | some b =>
      match as_brace b with
      | some br =>
        let w := (t.drop c.i).take c.piece_end
        let i' := c.i + c.piece_end + 1
        if t.length ≤ i' then StepOut.halt [w]
        else
          match br with
          | Brace.left =>
            StepOut.cont [w] { c with
              state := State.argPos
              piece_end := 0
              i := i'
              pos_range := (i', i')
              width_range := (0, 0)
              precision_range := (0, 0) }
          | Brace.right =>
            StepOut.cont [w] { c with state := State.piece, piece_end := 1, i := i' }
      | none => StepOut.cont [] { c with piece_end := c.piece_end + 1 }
  | State.arg =>
    let posV := parse_pos (extract t c.pos_range)
    let widthV := parse_width (extract t c.width_range)
    let precV := parse_usize (extract t c.precision_range)
    let resolved : Option ArgVal × Nat :=
      match posV with
      | Pos.some k => (args[k]?, c.cur)
      | Pos.none =>
        match args[c.cur]? with
        | some a => (some a, c.cur + 1)
        | none => (none, c.cur)
      | Pos.error => (none, c.cur)
    match resolved.1 with
    | some a => StepOut.cont [writeArg a widthV precV] { c with state := State.piece, cur := resolved.2 }
    | none => StepOut.cont [] { c with state := State.piece, cur := resolved.2 }
  | State.argPos | State.argWidth | State.argPrecision =>
    match t[c.i]?, c.state with
    | none, _ => StepOut.panicked
    | some '}', _ => StepOut.cont [] { c with state := State.arg, i := c.i + 1 }
    | some '{', _ => StepOut.cont [] { c with state := State.piece, piece_end := 1 }
    | some ':', State.argPos =>
      StepOut.cont [] { c with
        state := State.argWidth
        i := c.i + 1
        width_range := (c.i + 1, c.i + 1) }
    | some '.', State.argWidth =>
      StepOut.cont [] { c with
        state := State.argPrecision
        i := c.i + 1
        precision_range := (c.i + 1, c.i + 1) }
    | some ch, State.argPos =>
      if ch.toNat < 128 then
        StepOut.cont [] { c with i := c.i + 1, pos_range := (c.pos_range.1, c.pos_range.2 + 1) }
      else StepOut.panicked
    | some ch, State.argWidth =>
      if ch.toNat < 128 then
        StepOut.cont [] { c with i := c.i + 1, width_range := (c.width_range.1, c.width_range.2 + 1) }
      else StepOut.panicked
    | some ch, State.argPrecision =>
      if ch.toNat < 128 then
        StepOut.cont [] { c with i := c.i + 1, precision_range := (c.precision_range.1, c.precision_range.2 + 1) }
      else StepOut.panicked
    | some _, _ => StepOut.panicked

/-- Outcome of a run: ordered list of the strings written to the sink,
ending in success, in the `unreachable!()` panic, or out of fuel (the
fuel bound is proved sufficient below). -/
inductive RResult
  | ok (ws : List (List Char))
  | panicked (ws : List (List Char))
  | fuelOut
deriving DecidableEq

/-- Prepend writes performed before the rest of the run. -/
def RResult.prepend (ws : List (List Char)) : RResult → RResult
  | RResult.ok ws' => RResult.ok (ws ++ ws')
  | RResult.panicked ws' => RResult.panicked (ws ++ ws')
  | RResult.fuelOut => RResult.fuelOut

/-- The driver of the `loop`: iterate `step`, recording all writes. -/
def loopFmt (t : List Char) (args : List ArgVal) : Nat → Conf → RResult
  | 0, _ => RResult.fuelOut
  | fuel + 1, c =>
    match step t args c with
    | StepOut.halt ws => RResult.ok ws
    | StepOut.panicked => RResult.panicked []
    | StepOut.cont ws c' => (loopFmt t args fuel c').prepend ws

/-- The scan front the loop is reading at: `i + piece_end` in `State::Piece`,
`i` otherwise. -/
def readPos (c : Conf) : Nat :=
  match c.state with
  | State.piece => c.i + c.piece_end
  | _ => c.i

/-- Tie-break rank: `State::Arg` consumes no input before returning to
`State::Piece`. -/
def stRank (c : Conf) : Nat :=
  match c.state with
  | State.arg => 1
  | _ => 0

/-- Termination measure of the loop. -/
def mu (t : List Char) (c : Conf) : Nat :=
  2 * (t.length + 1 - readPos c) + stRank c

/-- Initial loop state of `Display::fmt`. -/
def initConf : Conf :=
  ⟨State.piece, (0, 0), (0, 0), (0, 0), 0, 0, 0⟩

/-- The full run of `Display::fmt`, with provably sufficient fuel. -/
def renderTrace (t : List Char) (args : List ArgVal) : RResult :=
  loopFmt t args (mu t initConf + 1) initConf

/-- The rendered output: the concatenation of all writes on a successful
run, `none` if the run panics (or would run out of fuel, which is proved
impossible). -/
def render (t : List Char) (args : List ArgVal) : Option (List Char) :=
  match renderTrace t args with
  | RResult.ok ws => some ws.flatten
  | _ => none

/-- The writes performed during a run, successful or not. -/
def traceWrites : RResult → List (List Char)
  | RResult.ok ws => ws
  | RResult.panicked ws => ws
  | RResult.fuelOut => []

/-- `loopFmt` reaches outcome `r` under every sufficient fuel. -/
def runsTo (t : List Char) (args : List ArgVal) (c : Conf) (r : RResult) : Prop :=
  ∀ fuel, mu t c < fuel → loopFmt t args fuel c = r

/-- Outcome of a run against a real sink: success, a surfaced write failure
(`err`, carrying the sink as it stood when the write failed), the
`unreachable!()` panic, or out of fuel. -/
inductive FmtR (σ : Type)
  | ok (s : σ)
  | err (s : σ)
  | panicked (s : σ)
  | fuelOut
deriving DecidableEq

/-- Apply a sequence of writes to the sink in order, stopping at the first
failed write; a failed write leaves the sink unchanged and `Sum.inr`
carries the sink state at the failure. -/
def writeSeq {σ : Type} (wr : σ → List Char → Option σ) : σ → List (List Char) → σ ⊕ σ
  | s, [] => Sum.inl s
  | s, w :: ws =>
    match wr s w with
    | some s' => writeSeq wr s' ws
    | none => Sum.inr s

/-- `Display::fmt` threaded through a fallible sink, mirroring the source's
`?` on every write: the first failed write aborts the loop with `err`. -/
def fmtWith {σ : Type} (t : List Char) (args : List ArgVal) (wr : σ → List Char → Option σ) :
    Nat → Conf → σ → FmtR σ
  | 0, _, _ => FmtR.fuelOut
  | fuel + 1, c, s =>
    match step t args c with
    | StepOut.halt ws =>
      match writeSeq wr s ws with
      | Sum.inl s' => FmtR.ok s'
      | Sum.inr s' => FmtR.err s'
    | StepOut.panicked => FmtR.panicked s
    | StepOut.cont ws c' =>
      match writeSeq wr s ws with
      | Sum.inl s' => fmtWith t args wr fuel c' s'
      | Sum.inr s' => FmtR.err s'

/-- The render operation against a sink: the whole `Display::fmt` call. -/
def renderWith {σ : Type} (wr : σ → List Char → Option σ) (s0 : σ) (t : List Char)
    (args : List ArgVal) : FmtR σ :=
  fmtWith t args wr (mu t initConf + 1) initConf s0

/-- Feed the write trace of a sink-free run to a sink. -/
def applyTrace {σ : Type} (wr : σ → List Char → Option σ) (s : σ) : RResult → FmtR σ
  | RResult.ok ws =>
    match writeSeq wr s ws with
    | Sum.inl s' => FmtR.ok s'
    | Sum.inr s' => FmtR.err s'
  | RResult.panicked ws =>
    match writeSeq wr s ws with
    | Sum.inl s' => FmtR.panicked s'
    | Sum.inr s' => FmtR.err s'
  | RResult.fuelOut => FmtR.fuelOut

def isBrace (c : Char) : Bool := c = '{' || c = '}'

/-- A character a placeholder spec can consume without panicking: not a
brace and ASCII, since on a multi-byte character the source's byte slice
of the remaining input falls off a character boundary and panics. -/
def specChar (c : Char) : Bool := !(isBrace c) && decide (c.toNat < 128)

/-- Number of brace characters in a string. -/
def braceCount (s : List Char) : Nat := (s.filter isBrace).length

/-- Number of escape pairs in a template, by a left-to-right scan: a
doubled brace counts one pair and both its characters are consumed. -/
def escapedPairs : List Char → Nat
  | [] => 0
  | [_] => 0
  | a :: b :: r =>
    if (a = '{' ∧ b = '{') ∨ (a = '}' ∧ b = '}') then escapedPairs r + 1
    else escapedPairs (b :: r)

/-- Token grammar of well-formed templates: non-brace literal characters,
escape pairs, and placeholders whose spec text is brace-free. -/
inductive Tok
  | lit (c : Char)
  | lbrace2
  | rbrace2
  | ph (spec : List Char)

/-- The template text of one token. -/
def Tok.flat : Tok → List Char
  | Tok.lit c => [c]
  | Tok.lbrace2 => ['{', '{']
  | Tok.rbrace2 => ['}', '}']
  | Tok.ph s => '{' :: (s ++ ['}'])

/-- The template text of a token string. -/
def flats : List Tok → List Char
  | [] => []
  | tok :: ts => tok.flat ++ flats ts

/-- Number of escape-pair tokens. -/
def pairToks : List Tok → Nat
  | [] => 0
  | Tok.lbrace2 :: ts => pairToks ts + 1
  | Tok.rbrace2 :: ts => pairToks ts + 1
  | _ :: ts => pairToks ts

/-- Well-formedness of a token: literal characters hold no brace, and spec
text holds only non-brace ASCII characters (a multi-byte character inside
a spec makes the program panic, see `step`). -/
def Tok.wf : Tok → Bool
  | Tok.lit c => !(isBrace c)
  | Tok.ph s => s.all specChar
  | _ => true

def wfToks (ts : List Tok) : Bool := ts.all Tok.wf

/-- All argument values render without brace characters, whatever width and
precision they are given. -/
def argsBraceFree (args : List ArgVal) : Prop :=
  ∀ a ∈ args, ∀ w p, braceCount (a w p) = 0

/-- Spec-side position resolution, following the specification text: trim
surrounding whitespace; empty means take-and-advance from the sequential
cursor; otherwise parse as a non-negative integer and read that argument
index without touching the cursor; parse failure resolves to no value. -/
def resolveSpecPos (posText : List Char) (cur : Nat) (args : List ArgVal) :
    Option ArgVal × Nat :=
  let s := trimChars posText
  if s = [] then
    match args[cur]? with
    | some a => (some a, cur + 1)
    | none => (none, cur)
  else
    match parse_usize s with
    | some n => (args[n]?, cur)
    | none => (none, cur)

/-- The cursor-evolution contract of one loop iteration: the cursor never
decreases, it moves only at an `Arg` step whose trimmed position text is
empty (and then by exactly one), a sequential read with arguments left
advances it, and an explicit-index read never moves it. -/
def cursorStepOK (t : List Char) (args : List ArgVal) (c c' : Conf) : Prop :=
  c.cur ≤ c'.cur ∧
  (c'.cur ≠ c.cur →
    c.state = State.arg ∧ parse_pos (extract t c.pos_range) = Pos.none ∧
      c'.cur = c.cur + 1) ∧
  (c.state = State.arg → parse_pos (extract t c.pos_range) = Pos.none →
    args[c.cur]? ≠ none → c'.cur = c.cur + 1) ∧
  (∀ k, c.state = State.arg → parse_pos (extract t c.pos_range) = Pos.some k →
    c'.cur = c.cur)

/-- A sink that always succeeds, appending every write to a buffer. -/
def catWrite : List Char → List Char → Option (List Char) := fun s w => some (s ++ w)

/-- A bounded sink: it accepts writes while at most one character in total
has been written, and fails afterwards. -/
def capWrite : Nat → List Char → Option Nat := fun s w =>
  if s + w.length ≤ 1 then some (s + w.length) else none

theorem get?_lt {t : List Char} {n : Nat} {ch : Char} (h : t[n]? = some ch) :
    n < t.length := by
  by_contra hn
  rw [List.getElem?_eq_none (Nat.le_of_not_lt hn)] at h
  exact Option.noConfusion h

/-- The measure strictly decreases on every continuing step. -/
theorem step_mu {t : List Char} {args : List ArgVal} {c : Conf} {ws : List (List Char)}
    {c' : Conf} (h : step t args c = StepOut.cont ws c') : mu t c' < mu t c := by
  obtain ⟨st, pr, wr, xr, cur, i, pe⟩ := c
  cases st
  case piece =>
    cases hg : t[i + pe]? with
    | none =>
      simp only [step, hg] at h
      exact StepOut.noConfusion h
    | some b =>
      have hlt : i + pe < t.length := get?_lt hg
      cases hbr : as_brace b with
      | none =>
        simp only [step, hg, hbr] at h
        cases h
        simp [mu, readPos, stRank]
        omega
      | some br =>
        cases br
        case left =>
          simp only [step, hg, hbr] at h
          by_cases hend : t.length ≤ i + pe + 1
          · rw [if_pos hend] at h
            exact StepOut.noConfusion h
          · rw [if_neg hend] at h
            cases h
            simp [mu, readPos, stRank]
            omega
        case right =>
          simp only [step, hg, hbr] at h
          by_cases hend : t.length ≤ i + pe + 1
          · rw [if_pos hend] at h
            exact StepOut.noConfusion h
          · rw [if_neg hend] at h
            cases h
            simp [mu, readPos, stRank]
            omega
  case arg =>
    simp only [step] at h
    split at h <;> cases h <;> simp [mu, readPos, stRank] <;> omega
  case argPos =>
    cases hg : t[i]? with
    | none => simp only [step, hg] at h; exact StepOut.noConfusion h
    | some ch =>
      have hlt : i < t.length := get?_lt hg
      simp only [step, hg] at h
      split at h <;> (try split at h) <;> (try exact StepOut.noConfusion h) <;> cases h <;>
        simp [mu, readPos, stRank] <;> omega
  case argWidth =>
    cases hg : t[i]? with
    | none => simp only [step, hg] at h; exact StepOut.noConfusion h
    | some ch =>
      have hlt : i < t.length := get?_lt hg
      simp only [step, hg] at h
      split at h <;> (try split at h) <;> (try exact StepOut.noConfusion h) <;> cases h <;>
        simp [mu, readPos, stRank] <;> omega
  case argPrecision =>
    cases hg : t[i]? with
    | none => simp only [step, hg] at h; exact StepOut.noConfusion h
    | some ch =>
      have hlt : i < t.length := get?_lt hg
      simp only [step, hg] at h
      split at h <;> (try split at h) <;> (try exact StepOut.noConfusion h) <;> cases h <;>
        simp [mu, readPos, stRank] <;> omega

theorem prepend_nil (r : RResult) : r.prepend [] = r := by
  cases r <;> simp [RResult.prepend]

theorem runsTo_halt {t : List Char} {args : List ArgVal} {c : Conf} {ws : List (List Char)}
    (h : step t args c = StepOut.halt ws) : runsTo t args c (RResult.ok ws) := by
  intro fuel hf
  cases fuel with
  | zero => exact absurd hf (Nat.not_lt_zero _)
  | succ f => simp [loopFmt, h]

theorem runsTo_panic {t : List Char} {args : List ArgVal} {c : Conf}
    (h : step t args c = StepOut.panicked) : runsTo t args c (RResult.panicked []) := by
  intro fuel hf
  cases fuel with
  | zero => exact absurd hf (Nat.not_lt_zero _)
  | succ f => simp [loopFmt, h]

theorem runsTo_cont {t : List Char} {args : List ArgVal} {c : Conf} {ws : List (List Char)}
    {c' : Conf} {r : RResult} (h : step t args c = StepOut.cont ws c')
    (h2 : runsTo t args c' r) : runsTo t args c (r.prepend ws) := by
  intro fuel hf
  cases fuel with
  | zero => exact absurd hf (Nat.not_lt_zero _)
  | succ f =>
    have hmu : mu t c' < f := lt_of_lt_of_le (step_mu h) (Nat.lt_succ_iff.mp hf)
    simp [loopFmt, h, h2 f hmu]

theorem loopFmt_ne_fuelOut {t : List Char} {args : List ArgVal} :
    ∀ {fuel : Nat} {c : Conf}, mu t c < fuel → loopFmt t args fuel c ≠ RResult.fuelOut := by
  intro fuel
  induction fuel with
  | zero => intro c hf; exact absurd hf (Nat.not_lt_zero _)
  | succ f ih =>
    intro c hf
    simp only [loopFmt]
    split
    · simp
    · simp
    case _ ws c' hstep =>
      have hne := ih (c := c') (lt_of_lt_of_le (step_mu hstep) (Nat.lt_succ_iff.mp hf))
      cases hr : loopFmt t args f c' with
      | ok ws' => simp [RResult.prepend]
      | panicked ws' => simp [RResult.prepend]
      | fuelOut => exact absurd hr hne

theorem runsTo_renderTrace {t : List Char} {args : List ArgVal} {r : RResult}
    (h : runsTo t args initConf r) : renderTrace t args = r :=
  h _ (Nat.lt_succ_self _)

theorem writeSeq_append {σ : Type} (wr : σ → List Char → Option σ) (s : σ)
    (ws ws' : List (List Char)) :
    writeSeq wr s (ws ++ ws') =
      match writeSeq wr s ws with
      | Sum.inl s' => writeSeq wr s' ws'
      | Sum.inr s' => Sum.inr s' := by
  induction ws generalizing s with
  | nil => simp [writeSeq]
  | cons w ws ih =>
    simp only [List.cons_append, writeSeq]
    cases hw : wr s w with
    | some s' => simp [ih]
    | none => simp

/-- The sink-threaded run equals feeding the sink with the write trace of
the sink-free run: the loop's control flow never depends on the sink. -/
theorem fmtWith_eq_applyTrace {σ : Type} {t : List Char} {args : List ArgVal}
    (wr : σ → List Char → Option σ) :
    ∀ {fuel : Nat} {c : Conf} {s : σ}, mu t c < fuel →
      fmtWith t args wr fuel c s = applyTrace wr s (loopFmt t args fuel c) := by
  intro fuel
  induction fuel with
  | zero => intro c s hf; exact absurd hf (Nat.not_lt_zero _)
  | succ f ih =>
    intro c s hf
    simp only [fmtWith, loopFmt]
    cases hstep : step t args c with
    | halt ws => simp [applyTrace]
    | panicked => simp [applyTrace, writeSeq]
    | cont ws c' =>
      have hmu : mu t c' < f := lt_of_lt_of_le (step_mu hstep) (Nat.lt_succ_iff.mp hf)
      have hne := @loopFmt_ne_fuelOut t args f c' hmu
      dsimp only
      cases hw : writeSeq wr s ws with
      | inl s' =>
        dsimp only
        rw [ih hmu]
        cases hr : loopFmt t args f c' with
        | ok ws' => simp [applyTrace, RResult.prepend, writeSeq_append, hw, hr]
        | panicked ws' => simp [applyTrace, RResult.prepend, writeSeq_append, hw, hr]
        | fuelOut => exact absurd hr hne
      | inr s' =>
        dsimp only
        cases hr : loopFmt t args f c' with
        | ok ws' => simp [applyTrace, RResult.prepend, writeSeq_append, hw, hr]
        | panicked ws' => simp [applyTrace, RResult.prepend, writeSeq_append, hw, hr]
        | fuelOut => exact absurd hr hne

theorem append_drop (p r : List Char) (k : Nat) : (p ++ r).drop (p.length + k) = r.drop k := by
  induction p with
  | nil => simp
  | cons a p ih =>
    have hlen : (a :: p).length + k = (p.length + k) + 1 := by simp [List.length_cons]; omega
    rw [List.cons_append, hlen, List.drop_succ_cons, ih]

theorem drop_of_drop_eq {t p r : List Char} {i : Nat} (h : t.drop i = p ++ r) (k : Nat) :
    t.drop (i + (p.length + k)) = r.drop k := by
  rw [← List.drop_drop, h, append_drop]

theorem get?_of_drop_eq {t p r : List Char} {i : Nat} (h : t.drop i = p ++ r) :
    t[i + p.length]? = r.head? := by
  have h1 : (t.drop i)[p.length]? = t[i + p.length]? := List.getElem?_drop t i p.length
  rw [← h1, h, List.getElem?_append_right (le_refl p.length), Nat.sub_self,
    List.head?_eq_getElem?]

theorem take_of_drop_eq {t p r : List Char} {i : Nat} (h : t.drop i = p ++ r) :
    (t.drop i).take p.length = p := by
  rw [h, List.take_left]

theorem escapedPairs_pair {a b : Char} (h : (a = '{' ∧ b = '{') ∨ (a = '}' ∧ b = '}'))
    (r : List Char) : escapedPairs (a :: b :: r) = escapedPairs r + 1 := by
  simp only [escapedPairs]
  rw [if_pos h]

theorem escapedPairs_nonpair {a b : Char} (h : ¬((a = '{' ∧ b = '{') ∨ (a = '}' ∧ b = '}')))
    (r : List Char) : escapedPairs (a :: b :: r) = escapedPairs (b :: r) := by
  simp only [escapedPairs]
  rw [if_neg h]

theorem escapedPairs_cons_of_nonbrace {a : Char} (ha : isBrace a = false) (r : List Char) :
    escapedPairs (a :: r) = escapedPairs r := by
  have h1 : ¬(a = '{') := by intro hh; rw [hh] at ha; simp [isBrace] at ha
  have h2 : ¬(a = '}') := by intro hh; rw [hh] at ha; simp [isBrace] at ha
  cases r with
  | nil => rfl
  | cons b r' =>
    exact escapedPairs_nonpair (by rintro (⟨hh, _⟩ | ⟨hh, _⟩) <;> [exact h1 hh; exact h2 hh]) r'

theorem escapedPairs_spec_skip {s : List Char} (hs : s.all (fun c => !(isBrace c)) = true)
    (r : List Char) : escapedPairs (s ++ '}' :: r) = escapedPairs ('}' :: r) := by
  induction s with
  | nil => rfl
  | cons c s ih =>
    rw [List.all_cons, Bool.and_eq_true] at hs
    have hc : isBrace c = false := by simpa using hs.1
    rw [List.cons_append, escapedPairs_cons_of_nonbrace hc, ih hs.2]

/-- The scan count of escape pairs over the flattened text of a well-formed
token string agrees with the token-level count, also when a spare closing
brace precedes the text. -/
theorem escapedPairs_flats (ts : List Tok) (h : wfToks ts = true) :
    escapedPairs (flats ts) = pairToks ts ∧ escapedPairs ('}' :: flats ts) = pairToks ts := by
  induction ts with
  | nil => exact ⟨rfl, rfl⟩
  | cons tok ts ih =>
    rw [wfToks, List.all_cons, Bool.and_eq_true] at h
    have ih' := ih h.2
    cases tok with
    | lit c =>
      have hc : isBrace c = false := by simpa [Tok.wf] using h.1
      have hne : ¬(c = '}') := by intro hh; rw [hh] at hc; simp [isBrace] at hc
      have hM : escapedPairs (c :: flats ts) = pairToks ts := by
        rw [escapedPairs_cons_of_nonbrace hc]
        exact ih'.1
      refine ⟨hM, ?_⟩
      have hnp : ¬((('}' : Char) = '{' ∧ c = '{') ∨ (('}' : Char) = '}' ∧ c = '}')) := by
        rintro (⟨hh, _⟩ | ⟨_, hh⟩)
        · exact absurd hh (by decide)
        · exact hne hh
      show escapedPairs ('}' :: c :: flats ts) = pairToks ts
      rw [escapedPairs_nonpair hnp (flats ts)]
      exact hM
    | lbrace2 =>
      have hM : escapedPairs ('{' :: '{' :: flats ts) = pairToks ts + 1 := by
        rw [escapedPairs_pair (Or.inl ⟨rfl, rfl⟩), ih'.1]
      refine ⟨hM, ?_⟩
      have hnp : ¬((('}' : Char) = '{' ∧ ('{' : Char) = '{') ∨
          (('}' : Char) = '}' ∧ ('{' : Char) = '}')) := by
        rintro (⟨hh, _⟩ | ⟨_, hh⟩) <;> exact absurd hh (by decide)
      show escapedPairs ('}' :: '{' :: '{' :: flats ts) = pairToks ts + 1
      rw [escapedPairs_nonpair hnp, escapedPairs_pair (Or.inl ⟨rfl, rfl⟩), ih'.1]
    | rbrace2 =>
      have hM : escapedPairs ('}' :: '}' :: flats ts) = pairToks ts + 1 := by
        rw [escapedPairs_pair (Or.inr ⟨rfl, rfl⟩), ih'.1]
      refine ⟨hM, ?_⟩
      show escapedPairs ('}' :: '}' :: '}' :: flats ts) = pairToks ts + 1
      rw [escapedPairs_pair (Or.inr ⟨rfl, rfl⟩), ih'.2]
    | ph s =>
      have hs0 : ∀ x ∈ s, specChar x = true := by simpa [Tok.wf] using h.1
      have hs : s.all (fun c => !(isBrace c)) = true := by
        rw [List.all_eq_true]
        intro x hx
        have := hs0 x hx
        rw [specChar, Bool.and_eq_true] at this
        simpa using this.1
      have hM : escapedPairs (('{' :: (s ++ ['}'])) ++ flats ts) = pairToks ts := by
        have hX : ('{' :: (s ++ ['}'])) ++ flats ts = '{' :: (s ++ '}' :: flats ts) := by
          simp
        rw [hX]
        cases hsc : s with
        | nil =>
          have hnp : ¬((('{' : Char) = '{' ∧ ('}' : Char) = '{') ∨
              (('{' : Char) = '}' ∧ ('}' : Char) = '}')) := by
            rintro (⟨_, hh⟩ | ⟨hh, _⟩) <;> exact absurd hh (by decide)
          show escapedPairs ('{' :: '}' :: flats ts) = pairToks ts
          rw [escapedPairs_nonpair hnp]
          exact ih'.2
        | cons c s' =>
          have hc : isBrace c = false := by
            rw [hsc, List.all_cons, Bool.and_eq_true] at hs
            simpa using hs.1
          have hcne : ¬(c = '{') := by intro hh; rw [hh] at hc; simp [isBrace] at hc
          have hnp : ¬((('{' : Char) = '{' ∧ c = '{') ∨ (('{' : Char) = '}' ∧ c = '}')) := by
            rintro (⟨_, hh⟩ | ⟨hh, _⟩)
            · exact hcne hh
            · exact absurd hh (by decide)
          rw [List.cons_append, escapedPairs_nonpair hnp]
          rw [← List.cons_append, ← hsc, escapedPairs_spec_skip hs]
          exact ih'.2
      refine ⟨hM, ?_⟩
      have hnp : ¬((('}' : Char) = '{' ∧ ('{' : Char) = '{') ∨
          (('}' : Char) = '}' ∧ ('{' : Char) = '}')) := by
        rintro (⟨hh, _⟩ | ⟨_, hh⟩) <;> exact absurd hh (by decide)
      have hY : ('{' :: (s ++ ['}'])) ++ flats ts = '{' :: ((s ++ ['}']) ++ flats ts) := by simp
      show escapedPairs ('}' :: (('{' :: (s ++ ['}'])) ++ flats ts)) = pairToks ts
      rw [hY, escapedPairs_nonpair hnp, ← hY]
      exact hM

theorem as_brace_none {c : Char} (hc : isBrace c = false) : as_brace c = none := by
  have h1 : ¬(c = '{') := by intro hh; rw [hh] at hc; simp [isBrace] at hc
  have h2 : ¬(c = '}') := by intro hh; rw [hh] at hc; simp [isBrace] at hc
  simp [as_brace, h1, h2]

theorem step_piece_none {t : List Char} {args : List ArgVal} {pr wr xr : Nat × Nat}
    {cur i pe : Nat} (hg : t[i + pe]? = none) :
    step t args ⟨State.piece, pr, wr, xr, cur, i, pe⟩ = StepOut.halt [t.drop i] := by
  simp [step, hg]

theorem step_piece_nonbrace {t : List Char} {args : List ArgVal} {pr wr xr : Nat × Nat}
    {cur i pe : Nat} {b : Char} (hg : t[i + pe]? = some b) (hb : as_brace b = none) :
    step t args ⟨State.piece, pr, wr, xr, cur, i, pe⟩ =
      StepOut.cont [] ⟨State.piece, pr, wr, xr, cur, i, pe + 1⟩ := by
  simp [step, hg, hb]

theorem step_piece_brace_end {t : List Char} {args : List ArgVal} {pr wr xr : Nat × Nat}
    {cur i pe : Nat} {b : Char} {br : Brace} (hg : t[i + pe]? = some b)
    (hb : as_brace b = some br) (hend : t.length ≤ i + pe + 1) :
    step t args ⟨State.piece, pr, wr, xr, cur, i, pe⟩ =
      StepOut.halt [(t.drop i).take pe] := by
  simp [step, hg, hb, hend]

theorem step_piece_left {t : List Char} {args : List ArgVal} {pr wr xr : Nat × Nat}
    {cur i pe : Nat} {b : Char} (hg : t[i + pe]? = some b)
    (hb : as_brace b = some Brace.left) (hlt : i + pe + 1 < t.length) :
    step t args ⟨State.piece, pr, wr, xr, cur, i, pe⟩ =
      StepOut.cont [(t.drop i).take pe]
        ⟨State.argPos, (i + pe + 1, i + pe + 1), (0, 0), (0, 0), cur, i + pe + 1, 0⟩ := by
  simp [step, hg, hb, Nat.not_le.mpr hlt]

theorem step_piece_right {t : List Char} {args : List ArgVal} {pr wr xr : Nat × Nat}
    {cur i pe : Nat} {b : Char} (hg : t[i + pe]? = some b)
    (hb : as_brace b = some Brace.right) (hlt : i + pe + 1 < t.length) :
    step t args ⟨State.piece, pr, wr, xr, cur, i, pe⟩ =
      StepOut.cont [(t.drop i).take pe]
        ⟨State.piece, pr, wr, xr, cur, i + pe + 1, 1⟩ := by
  simp [step, hg, hb, Nat.not_le.mpr hlt]

theorem step_spec_rbrace {t : List Char} {args : List ArgVal} {st : State} {pr wr xr : Nat × Nat}
    {cur i pe : Nat}
    (hst : st = State.argPos ∨ st = State.argWidth ∨ st = State.argPrecision)
    (hg : t[i]? = some '}') :
    step t args ⟨st, pr, wr, xr, cur, i, pe⟩ =
      StepOut.cont [] ⟨State.arg, pr, wr, xr, cur, i + 1, pe⟩ := by
  rcases hst with h | h | h <;> subst h <;> simp [step, hg]

theorem step_spec_lbrace {t : List Char} {args : List ArgVal} {st : State} {pr wr xr : Nat × Nat}
    {cur i pe : Nat}
    (hst : st = State.argPos ∨ st = State.argWidth ∨ st = State.argPrecision)
    (hg : t[i]? = some '{') :
    step t args ⟨st, pr, wr, xr, cur, i, pe⟩ =
      StepOut.cont [] ⟨State.piece, pr, wr, xr, cur, i, 1⟩ := by
  rcases hst with h | h | h <;> subst h <;> simp [step, hg]

theorem step_argPos_colon {t : List Char} {args : List ArgVal} {pr wr xr : Nat × Nat}
    {cur i pe : Nat} (hg : t[i]? = some ':') :
    step t args ⟨State.argPos, pr, wr, xr, cur, i, pe⟩ =
      StepOut.cont [] ⟨State.argWidth, pr, (i + 1, i + 1), xr, cur, i + 1, pe⟩ := by
  simp [step, hg]

theorem step_argPos_other {t : List Char} {args : List ArgVal} {pr wr xr : Nat × Nat}
    {cur i pe : Nat} {ch : Char} (hg : t[i]? = some ch) (h1 : ¬(ch = '}'))
    (h2 : ¬(ch = '{')) (h3 : ¬(ch = ':')) (h4 : ch.toNat < 128) :
    step t args ⟨State.argPos, pr, wr, xr, cur, i, pe⟩ =
      StepOut.cont [] ⟨State.argPos, (pr.1, pr.2 + 1), wr, xr, cur, i + 1, pe⟩ := by
  simp [step, hg, h1, h2, h3, h4]

theorem step_argWidth_dot {t : List Char} {args : List ArgVal} {pr wr xr : Nat × Nat}
    {cur i pe : Nat} (hg : t[i]? = some '.') :
    step t args ⟨State.argWidth, pr, wr, xr, cur, i, pe⟩ =
      StepOut.cont [] ⟨State.argPrecision, pr, wr, (i + 1, i + 1), cur, i + 1, pe⟩ := by
  simp [step, hg]

theorem step_argWidth_other {t : List Char} {args : List ArgVal} {pr wr xr : Nat × Nat}
    {cur i pe : Nat} {ch : Char} (hg : t[i]? = some ch) (h1 : ¬(ch = '}'))
    (h2 : ¬(ch = '{')) (h3 : ¬(ch = '.')) (h4 : ch.toNat < 128) :
    step t args ⟨State.argWidth, pr, wr, xr, cur, i, pe⟩ =
      StepOut.cont [] ⟨State.argWidth, pr, (wr.1, wr.2 + 1), xr, cur, i + 1, pe⟩ := by
  simp [step, hg, h1, h2, h3, h4]

theorem step_argPrecision_other {t : List Char} {args : List ArgVal} {pr wr xr : Nat × Nat}
    {cur i pe : Nat} {ch : Char} (hg : t[i]? = some ch) (h1 : ¬(ch = '}'))
    (h2 : ¬(ch = '{')) (h3 : ch.toNat < 128) :
    step t args ⟨State.argPrecision, pr, wr, xr, cur, i, pe⟩ =
      StepOut.cont [] ⟨State.argPrecision, pr, wr, (xr.1, xr.2 + 1), cur, i + 1, pe⟩ := by
  simp [step, hg, h1, h2, h3]

/-- Evaluation of `State::Arg`: resolve the position text, look up the
argument (explicit index via `get`, sequential via the iterator), write the
formatted argument or nothing, return to `State::Piece`. -/
theorem step_arg_eval {t : List Char} {args : List ArgVal} {pr wr xr : Nat × Nat}
    {cur i pe : Nat} :
    step t args ⟨State.arg, pr, wr, xr, cur, i, pe⟩ =
      match parse_pos (extract t pr) with
      | Pos.some k =>
        match args[k]? with
        | some a =>
          StepOut.cont [writeArg a (parse_width (extract t wr)) (parse_usize (extract t xr))]
            ⟨State.piece, pr, wr, xr, cur, i, pe⟩
        | none => StepOut.cont [] ⟨State.piece, pr, wr, xr, cur, i, pe⟩
      | Pos.none =>
        match args[cur]? with
        | some a =>
          StepOut.cont [writeArg a (parse_width (extract t wr)) (parse_usize (extract t xr))]
            ⟨State.piece, pr, wr, xr, cur + 1, i, pe⟩
        | none => StepOut.cont [] ⟨State.piece, pr, wr, xr, cur, i, pe⟩
      | Pos.error => StepOut.cont [] ⟨State.piece, pr, wr, xr, cur, i, pe⟩ := by
  cases hp : parse_pos (extract t pr) with
  | some k => cases hk : args[k]? <;> simp [step, hp, hk]
  | none => cases hk : args[cur]? <;> simp [step, hp, hk]
  | error => simp [step, hp]

/-- Shape of every `State::Arg` step: it writes either nothing or one
formatted argument drawn from the argument list, and returns to
`State::Piece` at the same input offset. -/
theorem step_arg_shape {t : List Char} {args : List ArgVal} {pr wr xr : Nat × Nat}
    {cur i pe : Nat} :
    ∃ ws cur', step t args ⟨State.arg, pr, wr, xr, cur, i, pe⟩ =
        StepOut.cont ws ⟨State.piece, pr, wr, xr, cur', i, pe⟩ ∧
      (ws = [] ∨ ∃ a ∈ args,
        ws = [writeArg a (parse_width (extract t wr)) (parse_usize (extract t xr))]) := by
  cases hp : parse_pos (extract t pr) with
  | some k =>
    cases hk : args[k]? with
    | some a =>
      refine ⟨[writeArg a (parse_width (extract t wr)) (parse_usize (extract t xr))], cur,
        ?_, Or.inr ⟨a, List.getElem?_mem hk, rfl⟩⟩
      simp [step, hp, hk]
    | none =>
      refine ⟨[], cur, ?_, Or.inl rfl⟩
      simp [step, hp, hk]
  | none =>
    cases hk : args[cur]? with
    | some a =>
      refine ⟨[writeArg a (parse_width (extract t wr)) (parse_usize (extract t xr))], cur + 1,
        ?_, Or.inr ⟨a, List.getElem?_mem hk, rfl⟩⟩
      simp [step, hp, hk]
    | none =>
      refine ⟨[], cur, ?_, Or.inl rfl⟩
      simp [step, hp, hk]
  | error =>
    refine ⟨[], cur, ?_, Or.inl rfl⟩
    simp [step, hp]

theorem writeArg_braceFree {args : List ArgVal} (hargs : argsBraceFree args) {a : ArgVal}
    (ha : a ∈ args) (w : Width) (p : Option Nat) : braceCount (writeArg a w p) = 0 := by
  cases w with
  | zero wv => cases p <;> simp [writeArg] <;> exact hargs a ha _ _
  | space wv => cases p <;> cases wv <;> simp [writeArg] <;> exact hargs a ha _ _

theorem lt_of_drop_cons {t : List Char} {j : Nat} {x : Char} {r : List Char}
    (h : t.drop j = x :: r) : j < t.length := by
  by_contra hc
  rw [List.drop_eq_nil_of_le (Nat.le_of_not_lt hc)] at h
  exact List.noConfusion h

theorem braceCount_append (a b : List Char) :
    braceCount (a ++ b) = braceCount a + braceCount b := by
  simp [braceCount, List.filter_append]

/-- Traversing a spec made of ASCII non-brace characters inside a
placeholder: from any spec state the machine consumes the spec text and the
closing brace, writes nothing, and reaches `State::Arg` just past the
closing brace (the ASCII restriction keeps the byte slice `&fmt[1..]` on a
character boundary). -/
theorem run_spec {t : List Char} {args : List ArgVal} :
    ∀ (spec : List Char) (st : State) (pr wr xr : Nat × Nat) (cur i pe : Nat) (rest : List Char),
      (st = State.argPos ∨ st = State.argWidth ∨ st = State.argPrecision) →
      spec.all specChar = true →
      t.drop i = spec ++ '}' :: rest →
      ∃ pr' wr' xr',
        ∀ r, runsTo t args ⟨State.arg, pr', wr', xr', cur, i + spec.length + 1, pe⟩ r →
          runsTo t args ⟨st, pr, wr, xr, cur, i, pe⟩ r := by
  intro spec
  induction spec with
  | nil =>
    intro st pr wr xr cur i pe rest hst hall hdrop
    have hg : t[i]? = some '}' := by
      have hh := get?_of_drop_eq (p := []) (r := '}' :: rest) (by simpa using hdrop)
      simpa using hh
    refine ⟨pr, wr, xr, fun r hr => ?_⟩
    have hr' : runsTo t args ⟨State.arg, pr, wr, xr, cur, i + 1, pe⟩ r := by
      simpa using hr
    have h2 := runsTo_cont (step_spec_rbrace hst hg) hr'
    rwa [prepend_nil] at h2
  | cons ch spec ih =>
    intro st pr wr xr cur i pe rest hst hall hdrop
    rw [List.all_cons, Bool.and_eq_true] at hall
    have hsc := hall.1
    rw [specChar, Bool.and_eq_true] at hsc
    have hch : isBrace ch = false := by simpa using hsc.1
    have hascii : ch.toNat < 128 := by simpa using hsc.2
    have h1 : ¬(ch = '}') := by intro hh; rw [hh] at hch; simp [isBrace] at hch
    have h2 : ¬(ch = '{') := by intro hh; rw [hh] at hch; simp [isBrace] at hch
    have hg : t[i]? = some ch := by
      have hh := get?_of_drop_eq (p := []) (r := ch :: (spec ++ '}' :: rest)) (by simpa using hdrop)
      simpa using hh
    have hdrop' : t.drop (i + 1) = spec ++ '}' :: rest := by
      have hh := drop_of_drop_eq (p := [ch]) (r := spec ++ '}' :: rest) (by simpa using hdrop) 0
      simpa using hh
    have hidx : i + (ch :: spec).length + 1 = (i + 1) + spec.length + 1 := by
      simp [List.length_cons]
      omega
    rcases hst with hst | hst | hst <;> subst hst
    · by_cases hc : ch = ':'
      · subst hc
        obtain ⟨pr', wr', xr', hcomp⟩ :=
          ih State.argWidth pr (i + 1, i + 1) xr cur (i + 1) pe rest (Or.inr (Or.inl rfl))
            hall.2 hdrop'
        refine ⟨pr', wr', xr', fun r hr => ?_⟩
        rw [hidx] at hr
        have h3 := runsTo_cont (@step_argPos_colon t args pr wr xr cur i pe hg) (hcomp r hr)
        rwa [prepend_nil] at h3
      · obtain ⟨pr', wr', xr', hcomp⟩ :=
          ih State.argPos (pr.1, pr.2 + 1) wr xr cur (i + 1) pe rest (Or.inl rfl)
            hall.2 hdrop'
        refine ⟨pr', wr', xr', fun r hr => ?_⟩
        rw [hidx] at hr
        have h3 := runsTo_cont (step_argPos_other hg h1 h2 hc hascii) (hcomp r hr)
        rwa [prepend_nil] at h3
    · by_cases hc : ch = '.'
      · subst hc
        obtain ⟨pr', wr', xr', hcomp⟩ :=
          ih State.argPrecision pr wr (i + 1, i + 1) cur (i + 1) pe rest
            (Or.inr (Or.inr rfl)) hall.2 hdrop'
        refine ⟨pr', wr', xr', fun r hr => ?_⟩
        rw [hidx] at hr
        have h3 := runsTo_cont (@step_argWidth_dot t args pr wr xr cur i pe hg) (hcomp r hr)
        rwa [prepend_nil] at h3
      · obtain ⟨pr', wr', xr', hcomp⟩ :=
          ih State.argWidth pr (wr.1, wr.2 + 1) xr cur (i + 1) pe rest
            (Or.inr (Or.inl rfl)) hall.2 hdrop'
        refine ⟨pr', wr', xr', fun r hr => ?_⟩
        rw [hidx] at hr
        have h3 := runsTo_cont (step_argWidth_other hg h1 h2 hc hascii) (hcomp r hr)
        rwa [prepend_nil] at h3
    · obtain ⟨pr', wr', xr', hcomp⟩ :=
        ih State.argPrecision pr wr (xr.1, xr.2 + 1) cur (i + 1) pe rest
          (Or.inr (Or.inr rfl)) hall.2 hdrop'
      refine ⟨pr', wr', xr', fun r hr => ?_⟩
      rw [hidx] at hr
      have h3 := runsTo_cont (step_argPrecision_other hg h1 h2 hascii) (hcomp r hr)
      rwa [prepend_nil] at h3

/-- Main machine lemma: from a `Piece` configuration whose pending literal
span is `p` and whose remaining input is the text of a well-formed token
string, the run succeeds and the brace count of everything it writes is the
brace count of `p` plus one per escape-pair token, provided all arguments
render brace-free. -/
theorem run_toks {t : List Char} {args : List ArgVal} (hargs : argsBraceFree args) :
    ∀ (ts : List Tok) (p : List Char) (pr wr xr : Nat × Nat) (cur i : Nat),
      wfToks ts = true →
      t.drop i = p ++ flats ts →
      ∃ ws, runsTo t args ⟨State.piece, pr, wr, xr, cur, i, p.length⟩ (RResult.ok ws) ∧
        (ws.map braceCount).sum = braceCount p + pairToks ts := by
  intro ts
  induction ts with
  | nil =>
    intro p pr wr xr cur i hwf hdrop
    rw [flats] at hdrop
    have hg : t[i + p.length]? = none := by
      have hh := get?_of_drop_eq (r := []) hdrop
      simpa using hh
    refine ⟨[t.drop i], runsTo_halt (step_piece_none hg), ?_⟩
    rw [hdrop]
    simp [braceCount_append, pairToks]
  | cons tok ts ih =>
    intro p pr wr xr cur i hwf hdrop
    rw [wfToks, List.all_cons, Bool.and_eq_true] at hwf
    have hwf2 : wfToks ts = true := hwf.2
    rw [flats] at hdrop
    cases tok with
    | lit c =>
      have hc : isBrace c = false := by simpa [Tok.wf] using hwf.1
      have hg : t[i + p.length]? = some c := by
        have hh := get?_of_drop_eq (p := p) hdrop
        simpa [Tok.flat] using hh
      have hdrop2 : t.drop i = (p ++ [c]) ++ flats ts := by
        rw [hdrop]
        simp [Tok.flat]
      obtain ⟨ws, hrun, hsum⟩ := ih (p ++ [c]) pr wr xr cur i hwf2 hdrop2
      rw [show (p ++ [c]).length = p.length + 1 from by simp] at hrun
      have h2 := runsTo_cont (step_piece_nonbrace hg (as_brace_none hc)) hrun
      rw [prepend_nil] at h2
      refine ⟨ws, h2, ?_⟩
      rw [hsum, braceCount_append]
      simp [braceCount, hc, pairToks]
    | rbrace2 =>
      have hg : t[i + p.length]? = some '}' := by
        have hh := get?_of_drop_eq (p := p) hdrop
        simpa [Tok.flat] using hh
      have hdrop2 : t.drop (i + p.length + 1) = '}' :: flats ts := by
        have hcond : t.drop i = (p ++ ['}']) ++ ('}' :: flats ts) := by
          rw [hdrop]
          simp [Tok.flat]
        have hh := drop_of_drop_eq hcond 0
        rw [show i + ((p ++ ['}']).length + 0) = i + p.length + 1 from by
          simp only [List.length_append, List.length_cons, List.length_nil]; omega] at hh
        simpa using hh
      have hlt : i + p.length + 1 < t.length := lt_of_drop_cons hdrop2
      obtain ⟨ws, hrun, hsum⟩ := ih ['}'] pr wr xr cur (i + p.length + 1) hwf2
        (by rw [hdrop2]; rfl)
      have h2 := runsTo_cont (step_piece_right hg (by simp [as_brace]) hlt) hrun
      rw [take_of_drop_eq hdrop] at h2
      refine ⟨p :: ws, by simpa [RResult.prepend] using h2, ?_⟩
      rw [List.map_cons, List.sum_cons, hsum]
      have hb : braceCount ['}'] = 1 := by simp [braceCount, isBrace]
      rw [hb]
      simp [pairToks]
      omega
    | lbrace2 =>
      have hg : t[i + p.length]? = some '{' := by
        have hh := get?_of_drop_eq (p := p) hdrop
        simpa [Tok.flat] using hh
      have hdrop2 : t.drop (i + p.length + 1) = '{' :: flats ts := by
        have hcond : t.drop i = (p ++ ['{']) ++ ('{' :: flats ts) := by
          rw [hdrop]
          simp [Tok.flat]
        have hh := drop_of_drop_eq hcond 0
        rw [show i + ((p ++ ['{']).length + 0) = i + p.length + 1 from by
          simp only [List.length_append, List.length_cons, List.length_nil]; omega] at hh
        simpa using hh
      have hlt : i + p.length + 1 < t.length := lt_of_drop_cons hdrop2
      have hg2 : t[i + p.length + 1]? = some '{' := by
        have hh := get?_of_drop_eq (p := []) (r := '{' :: flats ts) (by simpa using hdrop2)
        simpa using hh
      obtain ⟨ws, hrun, hsum⟩ := ih ['{'] (i + p.length + 1, i + p.length + 1) (0, 0) (0, 0)
        cur (i + p.length + 1) hwf2 (by rw [hdrop2]; rfl)
      have h2 := runsTo_cont (@step_spec_lbrace t args State.argPos
        (i + p.length + 1, i + p.length + 1) (0, 0) (0, 0) cur (i + p.length + 1) 0
        (Or.inl rfl) hg2) hrun
      rw [prepend_nil] at h2
      have h1 := runsTo_cont (@step_piece_left t args pr wr xr cur i p.length _ hg
        (by simp [as_brace]) hlt) h2
      rw [take_of_drop_eq hdrop] at h1
      refine ⟨p :: ws, by simpa [RResult.prepend] using h1, ?_⟩
      rw [List.map_cons, List.sum_cons, hsum]
      have hb : braceCount ['{'] = 1 := by simp [braceCount, isBrace]
      rw [hb]
      simp [pairToks]
      omega
    | ph s =>
      have hs0 : ∀ x ∈ s, specChar x = true := by simpa [Tok.wf] using hwf.1
      have hs : s.all specChar = true := by
        rw [List.all_eq_true]
        exact hs0
      have hg : t[i + p.length]? = some '{' := by
        have hh := get?_of_drop_eq (p := p) hdrop
        simpa [Tok.flat] using hh
      have hdrop2 : t.drop (i + p.length + 1) = s ++ '}' :: flats ts := by
        have hcond : t.drop i = (p ++ ['{']) ++ (s ++ '}' :: flats ts) := by
          rw [hdrop]
          simp [Tok.flat]
        have hh := drop_of_drop_eq hcond 0
        rw [show i + ((p ++ ['{']).length + 0) = i + p.length + 1 from by
          simp only [List.length_append, List.length_cons, List.length_nil]; omega] at hh
        simpa using hh
      have hlt : i + p.length + 1 < t.length := by
        obtain ⟨x, r', hxr⟩ : ∃ x r', s ++ '}' :: flats ts = x :: r' := by
          cases s with
          | nil => exact ⟨_, _, rfl⟩
          | cons a s' => exact ⟨_, _, rfl⟩
        exact lt_of_drop_cons (hdrop2.trans hxr)
      obtain ⟨pr', wr', xr', hcomp⟩ := run_spec s State.argPos
        (i + p.length + 1, i + p.length + 1) (0, 0) (0, 0) cur (i + p.length + 1) 0
        (flats ts) (Or.inl rfl) hs hdrop2
      obtain ⟨ws0, cur2, hstep3, hws0⟩ := @step_arg_shape t args pr' wr' xr' cur
        (i + p.length + 1 + s.length + 1) 0
      have hdrop3 : t.drop (i + p.length + 1 + s.length + 1) = [] ++ flats ts := by
        have hcond : t.drop (i + p.length + 1) = (s ++ ['}']) ++ flats ts := by
          rw [hdrop2]
          simp
        have hh := drop_of_drop_eq hcond 0
        rw [show i + p.length + 1 + ((s ++ ['}']).length + 0) = i + p.length + 1 + s.length + 1
          from by simp only [List.length_append, List.length_cons, List.length_nil]; omega] at hh
        simpa using hh
      obtain ⟨ws, hrun, hsum⟩ := ih [] pr' wr' xr' cur2 (i + p.length + 1 + s.length + 1)
        hwf2 hdrop3
      have h3 := runsTo_cont hstep3 hrun
      have h2 := hcomp _ h3
      have h1 := runsTo_cont (@step_piece_left t args pr wr xr cur i p.length _ hg
        (by simp [as_brace]) hlt) h2
      rw [take_of_drop_eq hdrop] at h1
      have hws0sum : (ws0.map braceCount).sum = 0 := by
        rcases hws0 with h | ⟨a, ha, h⟩
        · rw [h]; rfl
        · rw [h]
          simp [writeArg_braceFree hargs ha]
      refine ⟨p :: (ws0 ++ ws), ?_, ?_⟩
      · have : (RResult.ok ws).prepend ws0 = RResult.ok (ws0 ++ ws) := rfl
        rw [this] at h1
        simpa [RResult.prepend] using h1
      · rw [List.map_cons, List.sum_cons, List.map_append, List.sum_append, hws0sum, hsum]
        simp [pairToks, braceCount]

theorem loopFmt_halt_eq {t : List Char} {args : List ArgVal} {fuel : Nat} {c : Conf}
    {ws : List (List Char)} (h : step t args c = StepOut.halt ws) :
    loopFmt t args (fuel + 1) c = RResult.ok ws := by
  simp [loopFmt, h]

theorem loopFmt_cont_eq {t : List Char} {args : List ArgVal} {fuel : Nat} {c : Conf}
    {ws : List (List Char)} {c' : Conf} (h : step t args c = StepOut.cont ws c') :
    loopFmt t args (fuel + 1) c = (loopFmt t args fuel c').prepend ws := by
  simp [loopFmt, h]

theorem traceWrites_prepend {ws : List (List Char)} {r : RResult} (h : r ≠ RResult.fuelOut) :
    traceWrites (r.prepend ws) = ws ++ traceWrites r := by
  cases r with
  | ok ws' => simp [RResult.prepend, traceWrites]
  | panicked ws' => simp [RResult.prepend, traceWrites]
  | fuelOut => exact absurd rfl h

theorem braceCount_flatten (ws : List (List Char)) :
    braceCount ws.flatten = (ws.map braceCount).sum := by
  induction ws with
  | nil => rfl
  | cons w ws ih => simp [braceCount_append, ih]

/-- A brace-free stretch of the template is scanned to its end and flushed
as one literal write. -/
theorem run_nobrace {t : List Char} {args : List ArgVal} :
    ∀ (k : Nat) (pr wr xr : Nat × Nat) (cur i pe : Nat),
      t.length - (i + pe) ≤ k →
      (∀ ch ∈ t.drop (i + pe), as_brace ch = none) →
      runsTo t args ⟨State.piece, pr, wr, xr, cur, i, pe⟩ (RResult.ok [t.drop i]) := by
  intro k
  induction k with
  | zero =>
    intro pr wr xr cur i pe hk hall
    have hg : t[i + pe]? = none := List.getElem?_eq_none (by omega)
    exact runsTo_halt (step_piece_none hg)
  | succ k ih =>
    intro pr wr xr cur i pe hk hall
    cases hg : t[i + pe]? with
    | none => exact runsTo_halt (step_piece_none hg)
    | some b =>
      have hlt := get?_lt hg
      have hmem : b ∈ t.drop (i + pe) := by
        have hh : (t.drop (i + pe)).head? = some b := by
          rw [List.head?_eq_getElem?, List.getElem?_drop]
          simpa using hg
        exact List.mem_of_mem_head? (by simp [hh])
      have hb : as_brace b = none := hall b hmem
      have hall' : ∀ ch ∈ t.drop (i + (pe + 1)), as_brace ch = none := by
        intro ch hch
        apply hall
        have hd : t.drop (i + (pe + 1)) = (t.drop (i + pe)).drop 1 := by
          rw [List.drop_drop]
          congr 1
        rw [hd] at hch
        exact List.mem_of_mem_drop hch
      have h2 := ih pr wr xr cur i (pe + 1) (by omega) hall'
      have h3 := runsTo_cont (step_piece_nonbrace hg hb) h2
      rwa [prepend_nil] at h3

/-- From a `Piece` configuration, the first string subsequently written
begins with the pending literal span `t[i..i+pe)`. -/
theorem piece_first_write {t : List Char} {args : List ArgVal} :
    ∀ (fuel : Nat) (pr wr xr : Nat × Nat) (cur i pe : Nat),
      mu t ⟨State.piece, pr, wr, xr, cur, i, pe⟩ < fuel →
      ∃ w2 rest, traceWrites (loopFmt t args fuel ⟨State.piece, pr, wr, xr, cur, i, pe⟩) =
        ((t.drop i).take pe ++ w2) :: rest := by
  intro fuel
  induction fuel with
  | zero => intro pr wr xr cur i pe hf; exact absurd hf (Nat.not_lt_zero _)
  | succ f ih =>
    intro pr wr xr cur i pe hf
    cases hg : t[i + pe]? with
    | none =>
      rw [loopFmt_halt_eq (step_piece_none hg)]
      exact ⟨(t.drop i).drop pe, [], by simp [traceWrites, List.take_append_drop]⟩
    | some b =>
      cases hbr : as_brace b with
      | none =>
        have hstep := @step_piece_nonbrace t args pr wr xr cur i pe b hg hbr
        have hmu := lt_of_lt_of_le (step_mu hstep) (Nat.lt_succ_iff.mp hf)
        obtain ⟨w2, rest, hw⟩ := ih pr wr xr cur i (pe + 1) hmu
        refine ⟨((t.drop i).drop pe).take 1 ++ w2, rest, ?_⟩
        rw [loopFmt_cont_eq hstep, prepend_nil, hw, ← List.append_assoc, ← List.take_add]
      | some br =>
        by_cases hend : t.length ≤ i + pe + 1
        · rw [loopFmt_halt_eq (step_piece_brace_end hg hbr hend)]
          exact ⟨[], [], by simp [traceWrites]⟩
        · have hlt : i + pe + 1 < t.length := by omega
          cases br with
          | left =>
            have hstep := @step_piece_left t args pr wr xr cur i pe b hg hbr hlt
            have hmu := lt_of_lt_of_le (step_mu hstep) (Nat.lt_succ_iff.mp hf)
            refine ⟨[], traceWrites (loopFmt t args f
              ⟨State.argPos, (i + pe + 1, i + pe + 1), (0, 0), (0, 0), cur, i + pe + 1, 0⟩), ?_⟩
            rw [loopFmt_cont_eq hstep, traceWrites_prepend (loopFmt_ne_fuelOut hmu)]
            simp
          | right =>
            have hstep := @step_piece_right t args pr wr xr cur i pe b hg hbr hlt
            have hmu := lt_of_lt_of_le (step_mu hstep) (Nat.lt_succ_iff.mp hf)
            refine ⟨[], traceWrites (loopFmt t args f
              ⟨State.piece, pr, wr, xr, cur, i + pe + 1, 1⟩), ?_⟩
            rw [loopFmt_cont_eq hstep, traceWrites_prepend (loopFmt_ne_fuelOut hmu)]
            simp

/-- Outside `State::Arg` a step never touches the argument iterator. -/
theorem step_cur_eq_of_ne_arg {t : List Char} {args : List ArgVal} {c : Conf}
    {ws : List (List Char)} {c' : Conf} (hne : c.state ≠ State.arg)
    (h : step t args c = StepOut.cont ws c') : c'.cur = c.cur := by
  obtain ⟨st, pr, wr, xr, cur, i, pe⟩ := c
  cases st
  case piece =>
    cases hg : t[i + pe]? with
    | none =>
      simp only [step, hg] at h
      exact StepOut.noConfusion h
    | some b =>
      cases hbr : as_brace b with
      | none =>
        simp only [step, hg, hbr] at h
        cases h
        rfl
      | some br =>
        cases br
        case left =>
          simp only [step, hg, hbr] at h
          by_cases hend : t.length ≤ i + pe + 1
          · rw [if_pos hend] at h
            exact StepOut.noConfusion h
          · rw [if_neg hend] at h
            cases h
            rfl
        case right =>
          simp only [step, hg, hbr] at h
          by_cases hend : t.length ≤ i + pe + 1
          · rw [if_pos hend] at h
            exact StepOut.noConfusion h
          · rw [if_neg hend] at h
            cases h
            rfl
  case arg => exact absurd rfl hne
  case argPos =>
    cases hg : t[i]? with
    | none => simp only [step, hg] at h; exact StepOut.noConfusion h
    | some ch =>
      simp only [step, hg] at h
      split at h <;> (try split at h) <;> (try exact StepOut.noConfusion h) <;> cases h <;> rfl
  case argWidth =>
    cases hg : t[i]? with
    | none => simp only [step, hg] at h; exact StepOut.noConfusion h
    | some ch =>
      simp only [step, hg] at h
      split at h <;> (try split at h) <;> (try exact StepOut.noConfusion h) <;> cases h <;> rfl
  case argPrecision =>
    cases hg : t[i]? with
    | none => simp only [step, hg] at h; exact StepOut.noConfusion h
    | some ch =>
      simp only [step, hg] at h
      split at h <;> (try split at h) <;> (try exact StepOut.noConfusion h) <;> cases h <;> rfl

/-- Evidence for the character-boundary panic: a non-ASCII character inside
a placeholder spec makes `&fmt[1..]` slice off a character boundary and the
render panics, while the same character in literal text is scanned bytewise
past braces only and is copied verbatim. -/
theorem multibyte_spec_char_panics :
    renderTrace ['{', 'é', '}'] [] = RResult.panicked [[]] ∧
    render ['{', 'é', '}'] [] = none ∧
    render ['a', 'é', 'b'] [] = some ['a', 'é', 'b'] := by
  decide

/-- Claim C1 (code bug): the claim states that the end-of-input-inside-a-spec
branch, modelled as `StepOut.panicked`, is unreachable for every input and
that rendering never panics. The template consisting of a left brace
followed by the letter a refutes this: the machine opens a placeholder,
captures the letter, exhausts the input inside `State::ArgPos`, and takes
the `unreachable!()` branch, after having written only the empty literal
span. -/
theorem c1_unreachable_is_reached :
    renderTrace ['{', 'a'] [] = RResult.panicked [[]] ∧ render ['{', 'a'] [] = none := by
  decide

/-- Claim C2, counterexample: the claim asserts that the `{` retained after
aborting an in-progress spec is re-examined and may itself open a new
placeholder, so that rendering the template left-brace a left-brace
right-brace with one argument would render the argument. In fact the
retained `{` is swallowed into the next literal span (`piece_end` is set
to 1 past it), so the output is a single literal left brace and the
argument is never rendered. -/
theorem c2_counterexample :
    render ['{', 'a', '{', '}'] [fun _ _ => ['1']] = some ['{'] := by
  decide

/-- Claim C2, amended: in every spec state a `{` aborts the in-progress
spec, writes nothing, returns to `Literal` with the `{` unconsumed (same
offset `i`) and the captured sub-field text abandoned — but the retained
`{` is not re-examined as a placeholder opener: the scan resumes one past
it (`piece_end = 1`), so it is emitted verbatim as the first character of
the next flushed literal span. -/
theorem c2_abort_literalizes_brace (t : List Char) (args : List ArgVal) (st : State)
    (pr wr xr : Nat × Nat) (cur i pe : Nat)
    (hst : st = State.argPos ∨ st = State.argWidth ∨ st = State.argPrecision)
    (hg : t[i]? = some '{') :
    step t args ⟨st, pr, wr, xr, cur, i, pe⟩ =
      StepOut.cont [] ⟨State.piece, pr, wr, xr, cur, i, 1⟩ ∧
    ∀ fuel, mu t ⟨State.piece, pr, wr, xr, cur, i, 1⟩ < fuel →
      ∃ w2 rest, traceWrites (loopFmt t args fuel ⟨State.piece, pr, wr, xr, cur, i, 1⟩) =
        ('{' :: w2) :: rest := by
  refine ⟨step_spec_lbrace hst hg, fun fuel hf => ?_⟩
  obtain ⟨w2, rest, hw⟩ := piece_first_write fuel pr wr xr cur i 1 hf
  refine ⟨w2, rest, ?_⟩
  rw [hw]
  have hd : (t.drop i).take 1 = ['{'] := by
    have h1 : (t.drop i).head? = some '{' := by
      rw [List.head?_eq_getElem?, List.getElem?_drop]
      simpa using hg
    cases hdd : t.drop i with
    | nil => rw [hdd] at h1; simp at h1
    | cons x xs =>
      rw [hdd] at h1
      simp only [List.head?_cons, Option.some.injEq] at h1
      simp [h1]
  rw [hd]
  rfl

theorem c2_abort_literalizes_brace_witness :
    ((State.argPos = State.argPos ∨ State.argPos = State.argWidth ∨
        State.argPos = State.argPrecision) ∧
      (['{', 'a', '{', '}'] : List Char)[2]? = some '{') ∧
    step ['{', 'a', '{', '}'] [fun _ _ => ['1']]
        ⟨State.argPos, (1, 2), (0, 0), (0, 0), 0, 2, 0⟩ =
      StepOut.cont [] ⟨State.piece, (1, 2), (0, 0), (0, 0), 0, 2, 1⟩ ∧
    traceWrites (loopFmt ['{', 'a', '{', '}'] [fun _ _ => ['1']] 9
      ⟨State.piece, (1, 2), (0, 0), (0, 0), 0, 2, 1⟩) = [['{']] := by
  refine ⟨⟨Or.inl rfl, by decide⟩, ?_, by decide⟩
  exact (c2_abort_literalizes_brace ['{', 'a', '{', '}'] [fun _ _ => ['1']] State.argPos
    (1, 2) (0, 0) (0, 0) 0 2 0 (Or.inl rfl) (by decide)).1

/-- Claim C9: a template without brace characters renders to exactly
itself, whatever the arguments. -/
theorem c9_nobrace_identity (t : List Char) (args : List ArgVal)
    (h : ∀ ch ∈ t, as_brace ch = none) : render t args = some t := by
  have hrun := @run_nobrace t args t.length (0, 0) (0, 0) (0, 0) 0 0 0
    (by omega) (by simpa using h)
  have htr : renderTrace t args = RResult.ok [t.drop 0] := runsTo_renderTrace hrun
  simp [render, htr]

theorem c9_nobrace_identity_witness :
    (∀ ch ∈ (['a', 'b'] : List Char), as_brace ch = none) ∧
    render ['a', 'b'] [fun _ _ => ['1']] = some ['a', 'b'] := by
  refine ⟨by decide, ?_⟩
  exact c9_nobrace_identity ['a', 'b'] [fun _ _ => ['1']] (by decide)

/-- Claim C10: when the literal scan reaches the final character of the
template and it is a closing brace, the pending literal span is flushed,
the brace is consumed, and the render stops successfully — the trailing
brace contributes nothing to the output. -/
theorem c10_trailing_rbrace_dropped (t : List Char) (args : List ArgVal)
    (pr wr xr : Nat × Nat) (cur i pe fuel : Nat) (hlen : t.length = i + pe + 1)
    (hg : t[i + pe]? = some '}') :
    loopFmt t args (fuel + 1) ⟨State.piece, pr, wr, xr, cur, i, pe⟩ =
      RResult.ok [(t.drop i).take pe] := by
  have hb : as_brace '}' = some Brace.right := by simp [as_brace]
  exact loopFmt_halt_eq (step_piece_brace_end hg hb (by omega))

theorem c10_trailing_rbrace_dropped_witness :
    ((['a', 'b', '}'] : List Char).length = 0 + 2 + 1 ∧
      (['a', 'b', '}'] : List Char)[0 + 2]? = some '}') ∧
    loopFmt ['a', 'b', '}'] [fun _ _ => ['1']] 1
      ⟨State.piece, (0, 0), (0, 0), (0, 0), 0, 0, 2⟩ = RResult.ok [['a', 'b']] := by
  refine ⟨⟨by decide, by decide⟩, ?_⟩
  rw [c10_trailing_rbrace_dropped ['a', 'b', '}'] [fun _ _ => ['1']] (0, 0) (0, 0) (0, 0)
    0 0 2 0 (by decide) (by decide)]
  decide

/-- Claim C3, counterexample: the claim equates the brace count of the
output with the count of escaped pairs in the template for every template
and argument list. The template left-brace x left-brace has no escaped
pair, yet it renders as a single literal left brace: the second `{` aborts
the spec opened by the first and is emitted verbatim. -/
theorem c3_counterexample :
    render ['{', 'x', '{'] [] = some ['{'] ∧ braceCount ['{'] = 1 ∧
      escapedPairs ['{', 'x', '{'] = 0 := by
  decide

/-- Claim C3, amended: for templates built from non-brace literal
characters, escape pairs, and placeholders whose spec text consists of
ASCII non-brace characters (a non-ASCII spec character would panic at the
byte slice off a character boundary), and argument lists whose values
render without braces, rendering succeeds and the brace count of the
output equals the number of escaped pairs of the template. -/
theorem c3_output_braces_count_pairs (ts : List Tok) (args : List ArgVal)
    (hwf : wfToks ts = true) (hargs : argsBraceFree args) :
    render (flats ts) args ≠ none ∧
    braceCount ((render (flats ts) args).getD []) = escapedPairs (flats ts) := by
  obtain ⟨ws, hrun, hsum⟩ := run_toks (t := flats ts) hargs ts [] (0, 0) (0, 0) (0, 0) 0 0 hwf (by simp)
  have htr : renderTrace (flats ts) args = RResult.ok ws := runsTo_renderTrace hrun
  constructor
  · simp [render, htr]
  · simp only [render, htr, Option.getD_some]
    rw [braceCount_flatten, hsum, (escapedPairs_flats ts hwf).1]
    simp [braceCount]

theorem c3_output_braces_count_pairs_witness :
    (wfToks [Tok.lit 'a', Tok.lbrace2, Tok.ph ['0'], Tok.rbrace2] = true) ∧
    render (flats [Tok.lit 'a', Tok.lbrace2, Tok.ph ['0'], Tok.rbrace2])
        [fun _ _ => ['7']] ≠ none ∧
    braceCount ((render (flats [Tok.lit 'a', Tok.lbrace2, Tok.ph ['0'], Tok.rbrace2])
        [fun _ _ => ['7']]).getD []) =
      escapedPairs (flats [Tok.lit 'a', Tok.lbrace2, Tok.ph ['0'], Tok.rbrace2]) := by
  refine ⟨by decide, ?_⟩
  exact c3_output_braces_count_pairs [Tok.lit 'a', Tok.lbrace2, Tok.ph ['0'], Tok.rbrace2]
    [fun _ _ => ['7']] (by decide)
    (by
      intro a ha w p
      simp only [List.mem_singleton] at ha
      subst ha
      rfl)

/-- Claim C4, counterexample: the claim makes zero-padding equivalent to
the width text starting with the digit 0. The width text 0a starts with 0
but does not parse as a usize, so the code degrades it to `Space(0)` — no
zero-padding. -/
theorem c4_counterexample :
    parse_width ['0', 'a'] = Width.space 0 ∧ (['0', 'a'] : List Char).head? = some '0' := by
  decide

/-- Claim C4, amended: zero-padding is chosen iff the width text parses as
a usize and its first character is 0; when the parse fails the width
degrades to space padding with width 0. -/
theorem c4_zero_pad_iff_parse_and_leading_zero (s : List Char) :
    (parse_usize s = none → parse_width s = Width.space 0) ∧
    (∀ w, parse_usize s = some w →
      parse_width s = if s.head? = some '0' then Width.zero w else Width.space w) := by
  constructor
  · intro h
    simp [parse_width, h]
  · intro w h
    simp [parse_width, h]

theorem c4_zero_pad_iff_parse_and_leading_zero_witness :
    parse_usize ['0', '7'] = some 7 ∧ parse_width ['0', '7'] = Width.zero 7 := by
  refine ⟨by decide, ?_⟩
  rw [(c4_zero_pad_iff_parse_and_leading_zero ['0', '7']).2 7 (by decide)]
  decide

/-- Claim C5: a placeholder that resolves to no value — explicit index out
of range, unparsable position text, or exhausted sequential supply —
writes nothing, surfaces no error, leaves the cursor in place, and the run
continues with the rest of the template exactly as from the plain
`Literal` state. -/
theorem c5_unresolved_writes_nothing (t : List Char) (args : List ArgVal)
    (pr wr xr : Nat × Nat) (cur i pe : Nat)
    (hnone : (match parse_pos (extract t pr) with
      | Pos.some k => args[k]?
      | Pos.none => args[cur]?
      | Pos.error => none) = (none : Option ArgVal)) :
    step t args ⟨State.arg, pr, wr, xr, cur, i, pe⟩ =
      StepOut.cont [] ⟨State.piece, pr, wr, xr, cur, i, pe⟩ ∧
    ∀ fuel, loopFmt t args (fuel + 1) ⟨State.arg, pr, wr, xr, cur, i, pe⟩ =
      loopFmt t args fuel ⟨State.piece, pr, wr, xr, cur, i, pe⟩ := by
  have hstep : step t args ⟨State.arg, pr, wr, xr, cur, i, pe⟩ =
      StepOut.cont [] ⟨State.piece, pr, wr, xr, cur, i, pe⟩ := by
    rw [step_arg_eval]
    cases hp : parse_pos (extract t pr) with
    | some k =>
      rw [hp] at hnone
      have hk : args[k]? = none := hnone
      simp [hk]
    | none =>
      rw [hp] at hnone
      have hk : args[cur]? = none := hnone
      simp [hk]
    | error => rfl
  refine ⟨hstep, fun fuel => ?_⟩
  rw [loopFmt_cont_eq hstep, prepend_nil]

theorem c5_unresolved_writes_nothing_witness :
    ((match parse_pos (extract ['{', '5', '}'] (1, 2)) with
      | Pos.some k => ([] : List ArgVal)[k]?
      | Pos.none => ([] : List ArgVal)[0]?
      | Pos.error => none) = (none : Option ArgVal)) ∧
    step ['{', '5', '}'] [] ⟨State.arg, (1, 2), (0, 0), (0, 0), 0, 3, 0⟩ =
      StepOut.cont [] ⟨State.piece, (1, 2), (0, 0), (0, 0), 0, 3, 0⟩ ∧
    loopFmt ['{', '5', '}'] [] 4 ⟨State.arg, (1, 2), (0, 0), (0, 0), 0, 3, 0⟩ =
      loopFmt ['{', '5', '}'] [] 3 ⟨State.piece, (1, 2), (0, 0), (0, 0), 0, 3, 0⟩ := by
  have h := c5_unresolved_writes_nothing ['{', '5', '}'] [] (1, 2) (0, 0) (0, 0) 0 3 0 rfl
  exact ⟨rfl, h.1, h.2 3⟩

/-- Claim C6: the `State::Arg` step resolves the position sub-field exactly
as the specification describes — trim whitespace; empty text takes the
next sequential argument and advances the cursor; numeric text reads that
explicit 0-based index without touching the cursor; unparsable text
resolves to nothing — and then writes the formatted argument (or nothing)
and resumes scanning. -/
theorem c6_position_resolution (t : List Char) (args : List ArgVal) (pr wr xr : Nat × Nat)
    (cur i pe : Nat) :
    step t args ⟨State.arg, pr, wr, xr, cur, i, pe⟩ =
      StepOut.cont
        (match (resolveSpecPos (extract t pr) cur args).1 with
          | some a => [writeArg a (parse_width (extract t wr)) (parse_usize (extract t xr))]
          | none => [])
        ⟨State.piece, pr, wr, xr, (resolveSpecPos (extract t pr) cur args).2, i, pe⟩ := by
  rw [step_arg_eval]
  by_cases he : trimChars (extract t pr) = []
  · have hp : parse_pos (extract t pr) = Pos.none := by simp [parse_pos, he]
    rw [hp]
    cases hk : args[cur]? with
    | some a => simp [resolveSpecPos, he, hk]
    | none => simp [resolveSpecPos, he, hk]
  · cases hu : parse_usize (trimChars (extract t pr)) with
    | some n =>
      have hp : parse_pos (extract t pr) = Pos.some n := by simp [parse_pos, he, hu]
      rw [hp]
      cases hk : args[n]? with
      | some a => simp [resolveSpecPos, he, hu, hk]
      | none => simp [resolveSpecPos, he, hu, hk]
    | none =>
      have hp : parse_pos (extract t pr) = Pos.error := by simp [parse_pos, he, hu]
      rw [hp]
      simp [resolveSpecPos, he, hu]

/-- Claim C7: over any continuing step of the render loop the sequential
cursor never decreases; every advance happens at an `Arg` step whose
trimmed position text is empty and is by exactly one; a sequential read
with arguments remaining does advance it; and an explicit-index read never
moves it. -/
theorem c7_cursor_contract (t : List Char) (args : List ArgVal) (c c' : Conf)
    (ws : List (List Char)) (h : step t args c = StepOut.cont ws c') :
    cursorStepOK t args c c' := by
  obtain ⟨st, pr, wr, xr, cur, i, pe⟩ := c
  by_cases harg : st = State.arg
  · subst harg
    rw [step_arg_eval] at h
    cases hp : parse_pos (extract t pr) with
    | some k =>
      rw [hp] at h
      have h2 : (match args[k]? with
          | some a => StepOut.cont
              [writeArg a (parse_width (extract t wr)) (parse_usize (extract t xr))]
              (⟨State.piece, pr, wr, xr, cur, i, pe⟩ : Conf)
          | none => StepOut.cont [] (⟨State.piece, pr, wr, xr, cur, i, pe⟩ : Conf)) =
          StepOut.cont ws c' := h
      cases hk : args[k]? with
      | some a =>
        rw [hk] at h2
        have h' : StepOut.cont
            [writeArg a (parse_width (extract t wr)) (parse_usize (extract t xr))]
            (⟨State.piece, pr, wr, xr, cur, i, pe⟩ : Conf) = StepOut.cont ws c' := h2
        cases h'
        exact ⟨le_refl _, fun hne => absurd rfl hne,
          fun _ hpn _ => Pos.noConfusion (hp.symm.trans hpn), fun k' _ _ => rfl⟩
      | none =>
        rw [hk] at h2
        have h' : StepOut.cont [] (⟨State.piece, pr, wr, xr, cur, i, pe⟩ : Conf) =
          StepOut.cont ws c' := h2
        cases h'
        exact ⟨le_refl _, fun hne => absurd rfl hne,
          fun _ hpn _ => Pos.noConfusion (hp.symm.trans hpn), fun k' _ _ => rfl⟩
    | none =>
      rw [hp] at h
      have h2 : (match args[cur]? with
          | some a => StepOut.cont
              [writeArg a (parse_width (extract t wr)) (parse_usize (extract t xr))]
              (⟨State.piece, pr, wr, xr, cur + 1, i, pe⟩ : Conf)
          | none => StepOut.cont [] (⟨State.piece, pr, wr, xr, cur, i, pe⟩ : Conf)) =
          StepOut.cont ws c' := h
      cases hk : args[cur]? with
      | some a =>
        rw [hk] at h2
        have h' : StepOut.cont
            [writeArg a (parse_width (extract t wr)) (parse_usize (extract t xr))]
            (⟨State.piece, pr, wr, xr, cur + 1, i, pe⟩ : Conf) = StepOut.cont ws c' := h2
        cases h'
        exact ⟨Nat.le_succ _, fun _ => ⟨rfl, hp, rfl⟩, fun _ _ _ => rfl,
          fun k' _ hps => Pos.noConfusion (hp.symm.trans hps)⟩
      | none =>
        rw [hk] at h2
        have h' : StepOut.cont [] (⟨State.piece, pr, wr, xr, cur, i, pe⟩ : Conf) =
          StepOut.cont ws c' := h2
        cases h'
        exact ⟨le_refl _, fun hne => absurd rfl hne, fun _ _ hknn => absurd hk hknn,
          fun k' _ hps => Pos.noConfusion (hp.symm.trans hps)⟩
    | error =>
      rw [hp] at h
      have h' : StepOut.cont [] (⟨State.piece, pr, wr, xr, cur, i, pe⟩ : Conf) =
        StepOut.cont ws c' := h
      cases h'
      exact ⟨le_refl _, fun hne => absurd rfl hne,
        fun _ hpn _ => Pos.noConfusion (hp.symm.trans hpn),
        fun k' _ hps => Pos.noConfusion (hp.symm.trans hps)⟩
  · have hcur : c'.cur = cur := step_cur_eq_of_ne_arg harg h
    refine ⟨le_of_eq hcur.symm, fun hne => absurd hcur hne, fun hst => absurd hst harg,
      fun k' hst _ => absurd hst harg⟩

theorem c7_cursor_contract_witness :
    step ['{', '}'] [fun _ _ => ['z']] ⟨State.arg, (1, 1), (0, 0), (0, 0), 0, 2, 0⟩ =
      StepOut.cont [['z']] ⟨State.piece, (1, 1), (0, 0), (0, 0), 1, 2, 0⟩ ∧
    cursorStepOK ['{', '}'] [fun _ _ => ['z']]
      ⟨State.arg, (1, 1), (0, 0), (0, 0), 0, 2, 0⟩
      ⟨State.piece, (1, 1), (0, 0), (0, 0), 1, 2, 0⟩ := by
  have hs : step ['{', '}'] [fun _ _ => ['z']] ⟨State.arg, (1, 1), (0, 0), (0, 0), 0, 2, 0⟩ =
      StepOut.cont [['z']] ⟨State.piece, (1, 1), (0, 0), (0, 0), 1, 2, 0⟩ := by
    rw [step_arg_eval]
    rfl
  exact ⟨hs, c7_cursor_contract ['{', '}'] [fun _ _ => ['z']] _ _ [['z']] hs⟩

/-- Claim C8, counterexample: the claim says that when no sink write fails
the render returns success. With a sink that always succeeds, the template
left-brace a neither returns success nor an error: it panics in the
unterminated-spec branch. -/
theorem c8_counterexample : renderWith catWrite [] ['{', 'a'] [] = FmtR.panicked [] := by
  decide

/-- Claim C8, amended: provided the run does not panic — neither in the
unterminated-spec branch nor at the byte slice past a non-ASCII character
inside a placeholder spec — a sink write failure is the only surfaced
error: the render equals
feeding the sink the write trace in order, so the first failed write
aborts the render with `err` carrying the sink as already written (earlier
writes stand, nothing is retracted), and if every write succeeds the
render returns `ok`. -/
theorem c8_first_sink_failure_aborts {σ : Type} (wr : σ → List Char → Option σ) (s0 : σ)
    (t : List Char) (args : List ArgVal) (ws : List (List Char))
    (h : renderTrace t args = RResult.ok ws) :
    renderWith wr s0 t args =
      match writeSeq wr s0 ws with
      | Sum.inl s' => FmtR.ok s'
      | Sum.inr s' => FmtR.err s' := by
  rw [renderWith, fmtWith_eq_applyTrace wr (Nat.lt_succ_self _)]
  rw [renderTrace] at h
  rw [h]
  rfl

theorem c8_first_sink_failure_aborts_witness :
    renderTrace ['a', 'b'] [] = RResult.ok [['a', 'b']] ∧
    renderWith capWrite 0 ['a', 'b'] [] = FmtR.err 0 := by
  refine ⟨by decide, ?_⟩
  rw [c8_first_sink_failure_aborts capWrite 0 ['a', 'b'] [] [['a', 'b']] (by decide)]
  decide
